import Mathlib

set_option linter.unusedSectionVars false
set_option linter.unusedVariables false

/-!
Shallow embedding of an in-memory LRU cache with per-entry TTL (`lru.go` of
repository `leopoldxx/cache`, package `cache`), together with proofs of the
specification claims about it.

Modelling conventions:
* Go `time.Time` / `time.Duration` values are integers counting nanoseconds,
  mirroring Go's `time` package representation.
* The doubly-linked `container/list.List` is a Lean list with the front at the
  head.  A `*list.Element` (a heap pointer to a node) is modelled by a natural
  number node identity; the cache state carries an allocation counter
  `nextId` so that `PushFront` always hands out a fresh identity.  After
  `lst.Init()` drops every node, identities may be reused, so the counter
  resets there.
* The Go map `map[Key]*list.Element` is an association list from keys to node
  identities; lookup is `find?`, insertion of an absent key conses, and
  `delete` removes the key's bindings.
* The Go mutex serialises every public operation, so each operation is a pure
  state transformer; the lock itself has no further observable content.
* The optional `onEvicted` callback is modelled by a flag `hasCallback`
  (`onEvicted != nil`) plus `evicted`, the chronological record of the
  invocations `(key, value)` the cache has performed.
* Go `Value` results that may be `nil` (`Get`'s first result, `Del`'s result)
  are `Option V`, with `none` standing for `nil`.
-/

namespace LruCache

/-- One nanosecond, the unit of our integer time scale. -/
def nanosecond : Int := 1

/-- Go `time.Millisecond` in nanoseconds. -/
def millisecond : Int := 1000000

/-- Go `time.Second` in nanoseconds. -/
def second : Int := 1000000000

/-- Go `time.Minute` in nanoseconds. -/
def minute : Int := 60 * second

/-- Go constant `DefaultMaxLen = 10000`. -/
def DefaultMaxLen : Int := 10000

/-- Go constant `DefaultCacheTime = time.Minute`. -/
def DefaultCacheTime : Int := minute

/-- Go struct `listEntry`: the payload stored in each list node. -/
structure listEntry (K V : Type) where
  key : K
  value : V
  deadTime : Int
deriving DecidableEq

/-- Go struct `lruCache`.  `lst` is the recency list (front at the head),
`hash` the key index mapping keys to node identities, `nextId` the allocation
counter for node identities, and `hasCallback`/`evicted` model the optional
`onEvicted` callback and the record of its invocations. -/
structure lruCache (K V : Type) where
  maxLen : Int
  lst : List (Nat × listEntry K V)
  hash : List (K × Nat)
  cacheTime : Int
  nextId : Nat
  hasCallback : Bool
  evicted : List (K × V)
deriving DecidableEq

/-- Go struct `Config` (the callback field is modelled by its presence). -/
structure Config where
  MaxLen : Int
  CacheTime : Int
  HasCallback : Bool

variable {K V : Type} [DecidableEq K]

/-- Go map read `elem, exists := lru.hash[key]`. -/
def hashLookup (h : List (K × Nat)) (k : K) : Option Nat :=
  (h.find? (fun p => p.1 == k)).map Prod.snd

/-- Go `delete(lru.hash, key)`. -/
def hashDelete (h : List (K × Nat)) (k : K) : List (K × Nat) :=
  h.filter (fun p => !(p.1 == k))

/-- The underlying record built by `NewCacheWithConfig` (fresh list, fresh
map, no recorded callback invocations). -/
def freshCache (K V : Type) (maxLen cacheTime : Int) (hasCallback : Bool) :
    lruCache K V :=
  { maxLen := maxLen, lst := [], hash := [], cacheTime := cacheTime,
    nextId := 0, hasCallback := hasCallback, evicted := [] }

/-- Go `NewCacheWithConfig`: a cache time below one millisecond is replaced
by the default. -/
def NewCacheWithConfig (K V : Type) (config : Config) : lruCache K V :=
  freshCache K V config.MaxLen
    (if config.CacheTime < millisecond then DefaultCacheTime else config.CacheTime)
    config.HasCallback

/-- Go `NewCache`: default configuration, no callback. -/
def NewCache (K V : Type) : lruCache K V :=
  NewCacheWithConfig K V ⟨DefaultMaxLen, DefaultCacheTime, false⟩

/-- Go method `removeElem`: drop the node from the list, delete its key from
the index, and invoke the callback when one is configured.  The argument is
`Option` because `lst.Back()` yields `nil` on an empty list. -/
def removeElem (lru : lruCache K V) (elem : Option (Nat × listEntry K V)) :
    lruCache K V :=
  match elem with
  | none => lru
  | some (id, entry) =>
    { lru with
      lst := lru.lst.filter (fun p => !(p.1 == id)),
      hash := hashDelete lru.hash entry.key,
      evicted :=
        if lru.hasCallback then lru.evicted ++ [(entry.key, entry.value)]
        else lru.evicted }

/-- Go method `lazyRemoveOldest`: evict the back node when the index has
grown beyond `maxLen`. -/
def lazyRemoveOldest (lru : lruCache K V) : lruCache K V :=
  if (lru.hash.length : Int) > lru.maxLen then removeElem lru lru.lst.getLast?
  else lru

/-- Go method `PutWithTimeout`.  `now` is the value of `time.Now()` during
the call.  An existing node is moved to the front and its value and deadline
overwritten; otherwise a fresh node is pushed at the front, indexed, and one
lazy eviction step runs. -/
def PutWithTimeout (lru : lruCache K V) (key : K) (value : V) (t now : Int) :
    lruCache K V :=
  let t := if t < second then second else t
  match hashLookup lru.hash key with
  | some id =>
    match lru.lst.find? (fun p => p.1 == id) with
    | some (id', e) =>
      { lru with
        lst := (id', { e with value := value, deadTime := now + t }) ::
          lru.lst.filter (fun p => !(p.1 == id')) }
    | none => lru
  | none =>
    lazyRemoveOldest
      { lru with
        lst := (lru.nextId, ⟨key, value, now + t⟩) :: lru.lst,
        hash := (key, lru.nextId) :: lru.hash,
        nextId := lru.nextId + 1 }

/-- Go method `Put`: `PutWithTimeout` with the configured cache time. -/
def Put (lru : lruCache K V) (key : K) (value : V) (now : Int) :
    lruCache K V :=
  PutWithTimeout lru key value lru.cacheTime now

/-- Go method `Get`.  Returns the Go pair `(Value, bool)` together with the
state after the call: a present entry whose deadline lies strictly before
`now` is removed (with callback) and reported absent; a live entry is moved
to the front and returned. -/
def Get (lru : lruCache K V) (key : K) (now : Int) :
    (Option V × Bool) × lruCache K V :=
  match hashLookup lru.hash key with
  | some id =>
    match lru.lst.find? (fun p => p.1 == id) with
    | some (id', e) =>
      if e.deadTime < now then
        ((none, false), removeElem lru (some (id', e)))
      else
        ((some e.value, true),
          { lru with
            lst := (id', e) :: lru.lst.filter (fun p => !(p.1 == id')) })
    | none => ((none, false), lru)
  | none => ((none, false), lru)

/-- Go method `Del`: remove a present entry (with callback) and return its
stored value; return `nil` when the key is absent.  No deadline is read. -/
def Del (lru : lruCache K V) (key : K) : Option V × lruCache K V :=
  match hashLookup lru.hash key with
  | some id =>
    match lru.lst.find? (fun p => p.1 == id) with
    | some (id', e) => (some e.value, removeElem lru (some (id', e)))
    | none => (none, lru)
  | none => (none, lru)

/-- Go method `Len`: the size of the key index (the `nil`-map guard in the
source never fires, since every constructor and `Close` install a map). -/
def Len (lru : lruCache K V) : Nat :=
  lru.hash.length

/-- Go method `Close`: install a fresh map and re-initialise the list.  With
every node dropped, node identities may be reused, so the allocation counter
resets; the configuration and the callback record are untouched. -/
def Close (lru : lruCache K V) : lruCache K V :=
  { lru with hash := [], lst := [], nextId := 0 }

/-- One public operation of the cache interface, with the `time.Now()`
values the call observes. -/
inductive Op (K V : Type) where
  | put (k : K) (v : V) (now : Int)
  | putWithTimeout (k : K) (v : V) (t now : Int)
  | get (k : K) (now : Int)
  | del (k : K)
  | len
  | close

/-- Apply one public operation to the cache state (return values dropped). -/
def applyOp (s : lruCache K V) : Op K V → lruCache K V
  | .put k v now => Put s k v now
  | .putWithTimeout k v t now => PutWithTimeout s k v t now
  | .get k now => (Get s k now).2
  | .del k => (Del s k).2
  | .len => s
  | .close => Close s

/-- Run a sequence of public operations from a given state. -/
def runOps (s : lruCache K V) (ops : List (Op K V)) : lruCache K V :=
  ops.foldl applyOp s

/-- The key-to-identity graph of the recency list: the association pairs the
key index must contain, one per node. -/
def graph (lst : List (Nat × listEntry K V)) : List (K × Nat) :=
  lst.map (fun p => (p.2.key, p.1))

/-- Structural invariant of a cache state: node identities are distinct, keys
on the list are distinct, every node identity is below the allocation
counter, and the key index is (as a multiset) exactly the graph of the
recency list. -/
def InvS (s : lruCache K V) : Prop :=
  (s.lst.map Prod.fst).Nodup ∧
  (s.lst.map (fun p => p.2.key)).Nodup ∧
  (∀ p ∈ s.lst, p.1 < s.nextId) ∧
  s.hash.Perm (graph s.lst)

/-- Full invariant: the structural invariant plus the capacity bound. -/
def Inv (s : lruCache K V) : Prop :=
  InvS s ∧ (s.lst.length : Int) ≤ max s.maxLen 0

instance (s : lruCache K V) : Decidable (InvS s) := by
  unfold InvS; infer_instance

instance (s : lruCache K V) : Decidable (Inv s) := by
  unfold Inv; infer_instance

/-- Correspondence between the key index and the recency list: every index
entry points at a node that holds its key. -/
def Correspond (s : lruCache K V) : Prop :=
  ∀ p ∈ s.hash, ∃ e, (p.2, e) ∈ s.lst ∧ e.key = p.1

/-- Reindex every stored deadline through `f`, leaving keys, values, the
recency order, the index, and the callback record untouched.  Used to state
that an operation never reads deadlines. -/
def mapDead (f : Int → Int) (s : lruCache K V) : lruCache K V :=
  { s with
    lst := s.lst.map (fun p => (p.1, { p.2 with deadTime := f p.2.deadTime })) }

/-! ### Generic list helpers -/

theorem filter_beq_eq_self {α β : Type} [BEq β] [LawfulBEq β] (f : α → β)
    {l : List α} {b : β} (h : b ∉ l.map f) :
    l.filter (fun x => !(f x == b)) = l := by
  apply List.filter_eq_self.mpr
  intro x hx
  simp only [Bool.not_eq_true', beq_eq_false_iff_ne, ne_eq]
  intro hfx
  exact h (hfx ▸ List.mem_map_of_mem f hx)

theorem perm_cons_filter {α β : Type} [BEq β] [LawfulBEq β] (f : α → β)
    {l : List α} {a : α} (hmem : a ∈ l) (hnd : (l.map f).Nodup) :
    l.Perm (a :: l.filter (fun x => !(f x == f a))) := by
  induction l with
  | nil => cases hmem
  | cons b t ih =>
    simp only [List.map_cons, List.nodup_cons] at hnd
    rcases List.mem_cons.mp hmem with h | h
    · subst h
      rw [List.filter_cons_of_neg (by simp), filter_beq_eq_self f hnd.1]
    · have hfb : (f b == f a) = false := by
        simp only [beq_eq_false_iff_ne, ne_eq]
        intro hEq
        exact hnd.1 (hEq ▸ List.mem_map_of_mem f h)
      rw [List.filter_cons_of_pos (by simp [hfb])]
      exact ((ih h hnd.2).cons b).trans (List.Perm.swap a b _)

theorem find?_eq_of_mem_nodup {α β : Type} [BEq β] [LawfulBEq β] (f : α → β)
    {l : List α} {a : α} (hmem : a ∈ l) (hnd : (l.map f).Nodup) :
    l.find? (fun x => f x == f a) = some a := by
  induction l with
  | nil => cases hmem
  | cons b t ih =>
    simp only [List.map_cons, List.nodup_cons] at hnd
    rcases List.mem_cons.mp hmem with h | h
    · subst h
      simp only [List.find?, beq_self_eq_true]
    · have hfb : (f b == f a) = false := by
        simp only [beq_eq_false_iff_ne, ne_eq]
        intro hEq
        exact hnd.1 (hEq ▸ List.mem_map_of_mem f h)
      simp only [List.find?, hfb]
      exact ih h hnd.2

theorem filter_getLast_eq_dropLast {α β : Type} [BEq β] [LawfulBEq β] (f : α → β)
    {l : List α} {b : α} (hlast : l.getLast? = some b) (hnd : (l.map f).Nodup) :
    l.filter (fun x => !(f x == f b)) = l.dropLast := by
  have hsplit : l.dropLast ++ [b] = l := List.dropLast_append_getLast? b hlast
  have hnotmem : f b ∉ l.dropLast.map f := by
    have hnd2 : ((l.dropLast ++ [b]).map f).Nodup := by
      rw [hsplit]; exact hnd
    rw [List.map_append, List.map_cons, List.map_nil] at hnd2
    intro hmem
    rcases List.nodup_append.mp hnd2 with ⟨-, -, hdisj⟩
    exact hdisj hmem (List.mem_singleton.mpr rfl)
  conv_lhs => rw [← hsplit]
  rw [List.filter_append, filter_beq_eq_self f hnotmem]
  simp

/-! ### Facts about the key index -/

theorem hashLookup_mem {h : List (K × Nat)} {k : K} {id : Nat}
    (hl : hashLookup h k = some id) : (k, id) ∈ h := by
  unfold hashLookup at hl
  cases hf : h.find? (fun p => p.1 == k) with
  | none => rw [hf] at hl; cases hl
  | some p =>
    rw [hf] at hl
    have h1 : p.1 = k := by simpa using List.find?_some hf
    have h2 : p ∈ h := List.mem_of_find?_eq_some hf
    have h3 : p = (k, id) := by
      obtain ⟨p1, p2⟩ := p
      simp only [Option.map_some'] at hl
      simp_all
    exact h3 ▸ h2

theorem hashLookup_eq_none {h : List (K × Nat)} {k : K} :
    hashLookup h k = none ↔ ∀ p ∈ h, p.1 ≠ k := by
  unfold hashLookup
  simp only [Option.map_eq_none', List.find?_eq_none, Bool.not_eq_true,
    beq_eq_false_iff_ne, ne_eq]

theorem not_mem_keys_of_lookup_none {s : lruCache K V} {k : K}
    (hperm : s.hash.Perm (graph s.lst)) (hl : hashLookup s.hash k = none) :
    ∀ p ∈ s.lst, p.2.key ≠ k := by
  intro p hp hkey
  have hg : (k, p.1) ∈ graph s.lst := by
    unfold graph
    exact hkey ▸ List.mem_map_of_mem _ hp
  have hh : (k, p.1) ∈ s.hash := hperm.mem_iff.mpr hg
  exact hashLookup_eq_none.mp hl (k, p.1) hh rfl

theorem length_graph (lst : List (Nat × listEntry K V)) :
    (graph lst).length = lst.length := by
  simp [graph]

theorem hash_length_eq {s : lruCache K V} (hperm : s.hash.Perm (graph s.lst)) :
    s.hash.length = s.lst.length := by
  rw [hperm.length_eq, length_graph]

/-! ### Preservation of the invariant -/

theorem invS_removeElem {s : lruCache K V} {id : Nat} {e : listEntry K V}
    (hInv : InvS s) (hmem : (id, e) ∈ s.lst) :
    InvS (removeElem s (some (id, e))) := by
  obtain ⟨hids, hkeys, hfresh, hperm⟩ := hInv
  refine ⟨?_, ?_, ?_, ?_⟩
  · exact hids.sublist ((List.filter_sublist s.lst).map Prod.fst)
  · exact hkeys.sublist ((List.filter_sublist s.lst).map _)
  · intro p hp
    exact hfresh p (List.mem_of_mem_filter hp)
  · show (hashDelete s.hash e.key).Perm
      (graph (s.lst.filter (fun p => !(p.1 == id))))
    unfold hashDelete graph
    have h1 := hperm.filter (fun p => !(p.1 == e.key))
    unfold graph at h1
    rw [List.filter_map] at h1
    have h2 : s.lst.filter
          ((fun p => !(p.1 == e.key)) ∘ (fun p => (p.2.key, p.1)))
        = s.lst.filter (fun p => !(p.1 == id)) := by
      apply List.filter_congr
      intro p hp
      simp only [Function.comp]
      congr 1
      by_cases hk : p.2.key = e.key
      · have hpe : p = (id, e) := List.inj_on_of_nodup_map hkeys hp hmem hk
        simp [hk, hpe]
      · have hid : p.1 ≠ id := by
          intro h1'
          have hpe : p = (id, e) :=
            List.inj_on_of_nodup_map hids hp hmem (by simpa using h1')
          exact hk (by simp [hpe])
        simp [hk, hid]
    rw [h2] at h1
    exact h1

theorem lst_length_removeElem {s : lruCache K V} {id : Nat} {e : listEntry K V}
    (hids : (s.lst.map Prod.fst).Nodup) (hmem : (id, e) ∈ s.lst) :
    (removeElem s (some (id, e))).lst.length + 1 = s.lst.length := by
  have hperm := perm_cons_filter Prod.fst hmem hids
  have := hperm.length_eq
  simp only [List.length_cons] at this
  show (s.lst.filter (fun p => !(p.1 == id))).length + 1 = s.lst.length
  omega

theorem invS_promote {s : lruCache K V} {id : Nat} (e e' : listEntry K V)
    (hkey : e'.key = e.key) (hInv : InvS s) (hmem : (id, e) ∈ s.lst) :
    InvS { s with lst := (id, e') :: s.lst.filter (fun p => !(p.1 == id)) } ∧
    ((id, e') :: s.lst.filter (fun p => !(p.1 == id))).length = s.lst.length := by
  obtain ⟨hids, hkeys, hfresh, hperm⟩ := hInv
  have hp := perm_cons_filter Prod.fst hmem hids
  constructor
  · refine ⟨?_, ?_, ?_, ?_⟩
    · simp only [List.map_cons, List.nodup_cons]
      constructor
      · intro hidm
        rcases List.mem_map.mp hidm with ⟨q, hq, hq1⟩
        have := (List.mem_filter.mp hq).2
        simp only [Bool.not_eq_true', beq_eq_false_iff_ne, ne_eq] at this
        exact this hq1
      · exact hids.sublist ((List.filter_sublist s.lst).map Prod.fst)
    · simp only [List.map_cons, List.nodup_cons]
      constructor
      · intro hkm
        rcases List.mem_map.mp hkm with ⟨q, hq, hq1⟩
        have hqk : q.2.key = e.key := by rw [hq1, hkey]
        have hqe : q = (id, e) :=
          List.inj_on_of_nodup_map hkeys (List.mem_of_mem_filter hq) hmem hqk
        have := (List.mem_filter.mp hq).2
        simp [hqe] at this
      · exact hkeys.sublist ((List.filter_sublist s.lst).map _)
    · intro p hp'
      rcases List.mem_cons.mp hp' with h | h
      · subst h
        exact hfresh (id, e) hmem
      · exact hfresh p (List.mem_of_mem_filter h)
    · show s.hash.Perm (graph ((id, e') :: s.lst.filter (fun p => !(p.1 == id))))
      have hg : (graph s.lst).Perm
          (graph ((id, e) :: s.lst.filter (fun p => !(p.1 == id)))) := by
        unfold graph
        exact hp.map _
      refine hperm.trans (hg.trans ?_)
      unfold graph
      simp only [List.map_cons]
      rw [hkey]
  · have := hp.length_eq
    simp only [List.length_cons] at this ⊢
    omega

theorem inv_lazyRemoveOldest {s : lruCache K V}
    (hInvS : InvS s) (hlen : (s.lst.length : Int) ≤ max s.maxLen 0 + 1) :
    Inv (lazyRemoveOldest s) := by
  unfold lazyRemoveOldest
  by_cases hc : (s.hash.length : Int) > s.maxLen
  · rw [if_pos hc]
    cases hback : s.lst.getLast? with
    | none =>
      have hnil : s.lst = [] := List.getLast?_eq_none_iff.mp hback
      show Inv (removeElem s none)
      refine ⟨hInvS, ?_⟩
      show (s.lst.length : Int) ≤ max s.maxLen 0
      simp only [hnil, List.length_nil, Nat.cast_zero]
      exact le_max_right _ _
    | some b =>
      obtain ⟨id, e⟩ := b
      have hbmem : (id, e) ∈ s.lst := List.mem_of_getLast?_eq_some hback
      refine ⟨invS_removeElem hInvS hbmem, ?_⟩
      have hl := lst_length_removeElem hInvS.1 hbmem
      have hcast : ((removeElem s (some (id, e))).lst.length : Int) + 1 =
          (s.lst.length : Int) := by exact_mod_cast congrArg Nat.cast hl
      show ((removeElem s (some (id, e))).lst.length : Int) ≤ max s.maxLen 0
      have h2 : ((removeElem s (some (id, e))).lst.length : Int) + 1 ≤
          max s.maxLen 0 + 1 := by
        rw [hcast]; exact hlen
      exact le_of_add_le_add_right h2
  · rw [if_neg hc]
    refine ⟨hInvS, ?_⟩
    have heq : s.hash.length = s.lst.length := hash_length_eq hInvS.2.2.2
    have : (s.lst.length : Int) ≤ s.maxLen := by
      rw [← heq]
      omega
    exact le_trans this (le_max_left _ _)

theorem inv_putWithTimeout {s : lruCache K V} (hInv : Inv s)
    (k : K) (v : V) (t now : Int) : Inv (PutWithTimeout s k v t now) := by
  obtain ⟨hInvS, hlen⟩ := hInv
  obtain ⟨hids, hkeys, hfresh, hperm⟩ := hInvS
  unfold PutWithTimeout
  cases hl : hashLookup s.hash k with
  | some id =>
    dsimp only
    cases hf : s.lst.find? (fun p => p.1 == id) with
    | none => exact ⟨⟨hids, hkeys, hfresh, hperm⟩, hlen⟩
    | some q =>
      obtain ⟨id', e⟩ := q
      dsimp only
      have hmem : (id', e) ∈ s.lst := List.mem_of_find?_eq_some hf
      obtain ⟨hS, hL⟩ := invS_promote e
        { e with value := v, deadTime := now + (if t < second then second else t) }
        rfl ⟨hids, hkeys, hfresh, hperm⟩ hmem
      refine ⟨hS, ?_⟩
      dsimp only
      rw [hL]
      exact hlen
  | none =>
    dsimp only
    apply inv_lazyRemoveOldest
    · refine ⟨?_, ?_, ?_, ?_⟩
      · simp only [List.map_cons, List.nodup_cons]
        refine ⟨?_, hids⟩
        intro hm
        rcases List.mem_map.mp hm with ⟨q, hq, hq1⟩
        exact absurd hq1 (Nat.ne_of_lt (hfresh q hq))
      · simp only [List.map_cons, List.nodup_cons]
        refine ⟨?_, hkeys⟩
        intro hm
        rcases List.mem_map.mp hm with ⟨q, hq, hq1⟩
        exact not_mem_keys_of_lookup_none hperm hl q hq hq1
      · intro p hp
        rcases List.mem_cons.mp hp with h | h
        · rw [h]
          exact Nat.lt_succ_self _
        · exact Nat.lt_succ_of_lt (hfresh p h)
      · show ((k, s.nextId) :: s.hash).Perm
          (graph ((s.nextId, ⟨k, v, now + (if t < second then second else t)⟩) :: s.lst))
        unfold graph
        simp only [List.map_cons]
        exact hperm.cons _
    · dsimp only
      simp only [List.length_cons, Nat.cast_add, Nat.cast_one]
      exact add_le_add_right hlen 1

theorem inv_put {s : lruCache K V} (hInv : Inv s) (k : K) (v : V) (now : Int) :
    Inv (Put s k v now) :=
  inv_putWithTimeout hInv k v s.cacheTime now

theorem inv_get {s : lruCache K V} (hInv : Inv s) (k : K) (now : Int) :
    Inv (Get s k now).2 := by
  obtain ⟨hInvS, hlen⟩ := hInv
  obtain ⟨hids, hkeys, hfresh, hperm⟩ := hInvS
  unfold Get
  cases hl : hashLookup s.hash k with
  | none => exact ⟨⟨hids, hkeys, hfresh, hperm⟩, hlen⟩
  | some id =>
    dsimp only
    cases hf : s.lst.find? (fun p => p.1 == id) with
    | none => exact ⟨⟨hids, hkeys, hfresh, hperm⟩, hlen⟩
    | some q =>
      obtain ⟨id', e⟩ := q
      dsimp only
      have hmem : (id', e) ∈ s.lst := List.mem_of_find?_eq_some hf
      by_cases hd : e.deadTime < now
      · rw [if_pos hd]
        refine ⟨invS_removeElem ⟨hids, hkeys, hfresh, hperm⟩ hmem, ?_⟩
        have hl' := lst_length_removeElem hids hmem
        show ((removeElem s (some (id', e))).lst.length : Int) ≤ max s.maxLen 0
        have : (removeElem s (some (id', e))).lst.length ≤ s.lst.length := by omega
        exact le_trans (Nat.cast_le.mpr this) hlen
      · rw [if_neg hd]
        obtain ⟨hS, hL⟩ := invS_promote e e rfl ⟨hids, hkeys, hfresh, hperm⟩ hmem
        refine ⟨hS, ?_⟩
        dsimp only
        rw [hL]
        exact hlen

theorem inv_del {s : lruCache K V} (hInv : Inv s) (k : K) :
    Inv (Del s k).2 := by
  obtain ⟨hInvS, hlen⟩ := hInv
  obtain ⟨hids, hkeys, hfresh, hperm⟩ := hInvS
  unfold Del
  cases hl : hashLookup s.hash k with
  | none => exact ⟨⟨hids, hkeys, hfresh, hperm⟩, hlen⟩
  | some id =>
    dsimp only
    cases hf : s.lst.find? (fun p => p.1 == id) with
    | none => exact ⟨⟨hids, hkeys, hfresh, hperm⟩, hlen⟩
    | some q =>
      obtain ⟨id', e⟩ := q
      dsimp only
      have hmem : (id', e) ∈ s.lst := List.mem_of_find?_eq_some hf
      refine ⟨invS_removeElem ⟨hids, hkeys, hfresh, hperm⟩ hmem, ?_⟩
      have hl' := lst_length_removeElem hids hmem
      show ((removeElem s (some (id', e))).lst.length : Int) ≤ max s.maxLen 0
      have : (removeElem s (some (id', e))).lst.length ≤ s.lst.length := by omega
      exact le_trans (Nat.cast_le.mpr this) hlen

theorem inv_close (s : lruCache K V) : Inv (Close s) := by
  refine ⟨⟨?_, ?_, ?_, ?_⟩, ?_⟩
  · exact List.nodup_nil
  · exact List.nodup_nil
  · intro p hp
    cases hp
  · exact List.Perm.refl _
  · show ((0 : Nat) : Int) ≤ max s.maxLen 0
    simp

theorem inv_applyOp {s : lruCache K V} (hInv : Inv s) (op : Op K V) :
    Inv (applyOp s op) := by
  cases op with
  | put k v now => exact inv_put hInv k v now
  | putWithTimeout k v t now => exact inv_putWithTimeout hInv k v t now
  | get k now => exact inv_get hInv k now
  | del k => exact inv_del hInv k
  | len => exact hInv
  | close => exact inv_close s

theorem inv_runOps {s : lruCache K V} (hInv : Inv s) (ops : List (Op K V)) :
    Inv (runOps s ops) := by
  induction ops generalizing s with
  | nil => exact hInv
  | cons op ops ih => exact ih (inv_applyOp hInv op)

theorem inv_freshCache (maxLen cacheTime : Int) (hasCallback : Bool) :
    Inv (freshCache K V maxLen cacheTime hasCallback) := by
  refine ⟨⟨List.nodup_nil, List.nodup_nil, ?_, List.Perm.refl _⟩, ?_⟩
  · intro p hp
    cases hp
  · show ((0 : Nat) : Int) ≤ max maxLen 0
    simp

theorem inv_newCacheWithConfig (cfg : Config) :
    Inv (NewCacheWithConfig K V cfg) :=
  inv_freshCache _ _ _

/-! ### Behaviour lemmas -/

theorem find?_id_cons (id : Nat) (e : listEntry K V) (l : List (Nat × listEntry K V)) :
    ((id, e) :: l).find? (fun p => p.1 == id) = some (id, e) := by
  simp [List.find?]

theorem hashLookup_cons_self (k : K) (id : Nat) (h : List (K × Nat)) :
    hashLookup ((k, id) :: h) k = some id := by
  simp [hashLookup, List.find?]

theorem lookup_find {s : lruCache K V} (hInv : InvS s) {k : K} {id : Nat}
    (hl : hashLookup s.hash k = some id) :
    ∃ e, s.lst.find? (fun p => p.1 == id) = some (id, e) ∧ e.key = k ∧
      (id, e) ∈ s.lst := by
  obtain ⟨hids, hkeys, hfresh, hperm⟩ := hInv
  have hmemh : (k, id) ∈ s.hash := hashLookup_mem hl
  have hg : (k, id) ∈ graph s.lst := hperm.mem_iff.mp hmemh
  unfold graph at hg
  rcases List.mem_map.mp hg with ⟨p, hp, hpe⟩
  obtain ⟨pid, pe⟩ := p
  rw [Prod.mk.injEq] at hpe
  obtain ⟨hpk, hpid⟩ := hpe
  subst hpid
  refine ⟨pe, ?_, hpk, hp⟩
  exact find?_eq_of_mem_nodup Prod.fst hp hids

theorem entry_key_of_lookup {s : lruCache K V} (hInv : InvS s) {k : K}
    {id id' : Nat} {e : listEntry K V}
    (hl : hashLookup s.hash k = some id)
    (hf : s.lst.find? (fun p => p.1 == id) = some (id', e)) :
    id' = id ∧ e.key = k := by
  obtain ⟨pe, hf', hpk, hp⟩ := lookup_find hInv hl
  rw [hf'] at hf
  have h1 : id' = id ∧ e = pe := by
    have := hf.symm
    rw [Option.some.injEq, Prod.mk.injEq] at this
    exact this
  obtain ⟨h2, h3⟩ := h1
  subst h2
  subst h3
  exact ⟨rfl, hpk⟩

theorem second_le_clamp (t : Int) : second ≤ (if t < second then second else t) := by
  by_cases h : t < second
  · rw [if_pos h]
  · rw [if_neg h]
    omega

theorem clamp_deadline_live (t now : Int) :
    ¬ ((now + (if t < second then second else t)) < now) := by
  have h1 := second_le_clamp t
  have h2 : (0 : Int) < second := by decide
  omega

theorem get_put_same {s : lruCache K V} (hInv : Inv s) (hMax : 1 ≤ s.maxLen)
    (k : K) (v : V) (t now : Int) :
    (Get (PutWithTimeout s k v t now) k now).1 = (some v, true) := by
  obtain ⟨hInvS, hlen⟩ := hInv
  obtain ⟨hids, hkeys, hfresh, hperm⟩ := hInvS
  have hliv := clamp_deadline_live t now
  unfold PutWithTimeout
  cases hl : hashLookup s.hash k with
  | some id =>
    dsimp only
    obtain ⟨pe, hf, hpk, hpmem⟩ := lookup_find ⟨hids, hkeys, hfresh, hperm⟩ hl
    rw [hf]
    unfold Get
    dsimp only
    rw [hl]
    dsimp only
    rw [find?_id_cons]
    dsimp only
    rw [if_neg hliv]
  | none =>
    dsimp only
    unfold lazyRemoveOldest
    dsimp only
    split
    · rename_i hc
      have hne : s.lst ≠ [] := by
        intro hnil
        have hh : s.hash = [] := by
          have hp2 := hperm
          rw [hnil] at hp2
          simp only [graph, List.map_nil] at hp2
          exact hp2.eq_nil
        rw [hh] at hc
        simp only [List.length_cons, List.length_nil, Nat.cast_ofNat,
          Nat.cast_one, Nat.zero_add] at hc
        omega
      have hlast : ((s.nextId, (⟨k, v,
          now + (if t < second then second else t)⟩ : listEntry K V)) ::
            s.lst).getLast? = s.lst.getLast? := by
        cases hls : s.lst with
        | nil => exact absurd hls hne
        | cons c rest => exact List.getLast?_cons_cons
      rw [hlast]
      cases hbl : s.lst.getLast? with
      | none => exact absurd (List.getLast?_eq_none_iff.mp hbl) hne
      | some b =>
        obtain ⟨bid, be⟩ := b
        have hbmem : (bid, be) ∈ s.lst := List.mem_of_getLast?_eq_some hbl
        have hbid : bid ≠ s.nextId := Nat.ne_of_lt (hfresh _ hbmem)
        have hbkey : be.key ≠ k := not_mem_keys_of_lookup_none hperm hl _ hbmem
        unfold removeElem hashDelete
        dsimp only
        rw [List.filter_cons_of_pos (by simp [Ne.symm hbid]),
          List.filter_cons_of_pos (by simp [Ne.symm hbkey])]
        unfold Get
        dsimp only
        rw [hashLookup_cons_self]
        dsimp only
        rw [find?_id_cons]
        dsimp only
        rw [if_neg hliv]
    · unfold Get
      dsimp only
      rw [hashLookup_cons_self]
      dsimp only
      rw [find?_id_cons]
      dsimp only
      rw [if_neg hliv]

theorem get_expired (s : lruCache K V) (k : K) {id id' : Nat} {e : listEntry K V}
    (now : Int)
    (hl : hashLookup s.hash k = some id)
    (hf : s.lst.find? (fun p => p.1 == id) = some (id', e))
    (hexp : e.deadTime < now) :
    Get s k now = ((none, false), removeElem s (some (id', e))) := by
  unfold Get
  rw [hl]
  dsimp only
  rw [hf]
  dsimp only
  rw [if_pos hexp]

theorem get_live (s : lruCache K V) (k : K) {id id' : Nat} {e : listEntry K V}
    (now : Int)
    (hl : hashLookup s.hash k = some id)
    (hf : s.lst.find? (fun p => p.1 == id) = some (id', e))
    (hd : ¬ e.deadTime < now) :
    Get s k now = ((some e.value, true),
      { s with lst := (id', e) :: s.lst.filter (fun p => !(p.1 == id')) }) := by
  unfold Get
  rw [hl]
  dsimp only
  rw [hf]
  dsimp only
  rw [if_neg hd]

theorem get_nofind (s : lruCache K V) (k : K) {id : Nat} (now : Int)
    (hl : hashLookup s.hash k = some id)
    (hf : s.lst.find? (fun p => p.1 == id) = none) :
    Get s k now = ((none, false), s) := by
  unfold Get
  rw [hl]
  dsimp only
  rw [hf]

theorem get_absent (s : lruCache K V) (k : K) (now : Int)
    (hl : hashLookup s.hash k = none) :
    Get s k now = ((none, false), s) := by
  unfold Get
  rw [hl]

theorem del_present (s : lruCache K V) (k : K) {id id' : Nat} {e : listEntry K V}
    (hl : hashLookup s.hash k = some id)
    (hf : s.lst.find? (fun p => p.1 == id) = some (id', e)) :
    Del s k = (some e.value, removeElem s (some (id', e))) := by
  unfold Del
  rw [hl]
  dsimp only
  rw [hf]

theorem del_absent (s : lruCache K V) (k : K)
    (hl : hashLookup s.hash k = none) :
    Del s k = (none, s) := by
  unfold Del
  rw [hl]

theorem put_existing (s : lruCache K V) (k : K) {id id' : Nat}
    {e : listEntry K V} (v : V) (t now : Int)
    (hl : hashLookup s.hash k = some id)
    (hf : s.lst.find? (fun p => p.1 == id) = some (id', e)) :
    PutWithTimeout s k v t now =
      { s with lst := (id',
          { e with
            value := v,
            deadTime := now + (if t < second then second else t) }) ::
          s.lst.filter (fun p => !(p.1 == id')) } := by
  unfold PutWithTimeout
  rw [hl]
  dsimp only
  rw [hf]

theorem put_nofind (s : lruCache K V) (k : K) {id : Nat} (v : V) (t now : Int)
    (hl : hashLookup s.hash k = some id)
    (hf : s.lst.find? (fun p => p.1 == id) = none) :
    PutWithTimeout s k v t now = s := by
  unfold PutWithTimeout
  rw [hl]
  dsimp only
  rw [hf]

theorem put_new (s : lruCache K V) (k : K) (v : V) (t now : Int)
    (hl : hashLookup s.hash k = none) :
    PutWithTimeout s k v t now = lazyRemoveOldest
      { s with
        lst := (s.nextId,
          ⟨k, v, now + (if t < second then second else t)⟩) :: s.lst,
        hash := (k, s.nextId) :: s.hash,
        nextId := s.nextId + 1 } := by
  unfold PutWithTimeout
  rw [hl]

theorem removeElem_facts {s : lruCache K V} (hInv : Inv s) {k : K} {id : Nat}
    {e : listEntry K V}
    (hl : hashLookup s.hash k = some id)
    (hf : s.lst.find? (fun p => p.1 == id) = some (id, e)) :
    e.key = k ∧
    hashLookup (removeElem s (some (id, e))).hash k = none ∧
    (∀ p ∈ (removeElem s (some (id, e))).lst, p.1 ≠ id) ∧
    (∀ p ∈ (removeElem s (some (id, e))).lst, p.2.key ≠ k) ∧
    (removeElem s (some (id, e))).lst.length + 1 = s.lst.length ∧
    (removeElem s (some (id, e))).hash.length + 1 = s.hash.length ∧
    (removeElem s (some (id, e))).evicted =
      (if s.hasCallback then s.evicted ++ [(k, e.value)] else s.evicted) := by
  have hek : e.key = k := (entry_key_of_lookup hInv.1 hl hf).2
  have hmem : (id, e) ∈ s.lst := List.mem_of_find?_eq_some hf
  have hS := invS_removeElem hInv.1 hmem
  have hlst := lst_length_removeElem hInv.1.1 hmem
  refine ⟨hek, ?_, ?_, ?_, hlst, ?_, ?_⟩
  · apply hashLookup_eq_none.mpr
    intro p hp
    have hp2 := (List.mem_filter.mp hp).2
    simp only [Bool.not_eq_true', beq_eq_false_iff_ne, ne_eq] at hp2
    rw [← hek]
    exact hp2
  · intro p hp
    have hp2 := (List.mem_filter.mp hp).2
    simp only [Bool.not_eq_true', beq_eq_false_iff_ne, ne_eq] at hp2
    exact hp2
  · intro p hp hpk
    have hpmem : p ∈ s.lst := List.mem_of_mem_filter hp
    have hpe : p = (id, e) :=
      List.inj_on_of_nodup_map hInv.1.2.1 hpmem hmem (by rw [hpk, hek])
    have hp2 := (List.mem_filter.mp hp).2
    simp [hpe] at hp2
  · have h1 : (removeElem s (some (id, e))).hash.length =
        (removeElem s (some (id, e))).lst.length := hash_length_eq hS.2.2.2
    have h2 : s.hash.length = s.lst.length := hash_length_eq hInv.1.2.2.2
    omega
  · rw [← hek]
    rfl

/-! ### Operations other than Get never read stored deadlines -/

theorem mapDead_hash (f : Int → Int) (s : lruCache K V) :
    (mapDead f s).hash = s.hash := rfl

theorem del_nofind (s : lruCache K V) (k : K) {id : Nat}
    (hl : hashLookup s.hash k = some id)
    (hf : s.lst.find? (fun p => p.1 == id) = none) :
    Del s k = (none, s) := by
  unfold Del
  rw [hl]
  dsimp only
  rw [hf]

theorem find?_mapDead (f : Int → Int) (s : lruCache K V) (id : Nat) :
    (mapDead f s).lst.find? (fun p => p.1 == id) =
      (s.lst.find? (fun p => p.1 == id)).map
        (fun p : Nat × listEntry K V =>
          (p.1, { p.2 with deadTime := f p.2.deadTime })) := by
  show (s.lst.map (fun p : Nat × listEntry K V =>
      (p.1, { p.2 with deadTime := f p.2.deadTime }))).find?
        (fun p => p.1 == id) = _
  rw [List.find?_map]
  rfl

theorem mapDead_removeElem (f : Int → Int) (s : lruCache K V) (id : Nat)
    (e : listEntry K V) :
    removeElem (mapDead f s) (some (id, { e with deadTime := f e.deadTime })) =
      mapDead f (removeElem s (some (id, e))) := by
  unfold removeElem mapDead hashDelete
  dsimp only
  rw [List.filter_map]
  rfl

theorem mapDead_del (f : Int → Int) (s : lruCache K V) (k : K) :
    Del (mapDead f s) k = ((Del s k).1, mapDead f (Del s k).2) := by
  cases hl : hashLookup s.hash k with
  | none =>
    rw [del_absent s k hl, del_absent (mapDead f s) k hl]
  | some id =>
    cases hf : s.lst.find? (fun p => p.1 == id) with
    | none =>
      have hfm : (mapDead f s).lst.find? (fun p => p.1 == id) = none := by
        rw [find?_mapDead, hf]
        rfl
      rw [del_nofind s k hl hf, del_nofind (mapDead f s) k hl hfm]
    | some q =>
      obtain ⟨id', e⟩ := q
      have hfm : (mapDead f s).lst.find? (fun p => p.1 == id) =
          some (id', { e with deadTime := f e.deadTime }) := by
        rw [find?_mapDead, hf]
        rfl
      rw [del_present s k hl hf, del_present (mapDead f s) k hl hfm]
      dsimp only
      rw [mapDead_removeElem]

theorem mapDead_len (f : Int → Int) (s : lruCache K V) :
    Len (mapDead f s) = Len s := rfl

theorem mapDead_close (f : Int → Int) (s : lruCache K V) :
    Close (mapDead f s) = Close s := by
  unfold Close mapDead
  rfl

theorem map_fst_filter_congr (j : Nat) :
    ∀ {l₁ l₂ : List (Nat × listEntry K V)},
      l₁.map Prod.fst = l₂.map Prod.fst →
      (l₁.filter (fun p => !(p.1 == j))).map Prod.fst =
        (l₂.filter (fun p => !(p.1 == j))).map Prod.fst := by
  intro l₁
  induction l₁ with
  | nil =>
    intro l₂ h
    cases l₂ with
    | nil => rfl
    | cons b t => simp at h
  | cons a t ih =>
    intro l₂ h
    cases l₂ with
    | nil => simp at h
    | cons b t₂ =>
      simp only [List.map_cons, List.cons.injEq] at h
      obtain ⟨h1, h2⟩ := h
      rw [List.filter_cons, List.filter_cons, h1]
      by_cases hj : (!(b.1 == j)) = true
      · rw [if_pos hj, if_pos hj]
        simp only [List.map_cons, h1, ih h2]
      · rw [if_neg hj, if_neg hj]
        exact ih h2

theorem put_time_blind (s : lruCache K V) (k : K) (v : V) (t now now' : Int) :
    (PutWithTimeout s k v t now).hash = (PutWithTimeout s k v t now').hash ∧
    (PutWithTimeout s k v t now).lst.map Prod.fst =
      (PutWithTimeout s k v t now').lst.map Prod.fst ∧
    (PutWithTimeout s k v t now).evicted =
      (PutWithTimeout s k v t now').evicted := by
  cases hl : hashLookup s.hash k with
  | some id =>
    cases hf : s.lst.find? (fun p => p.1 == id) with
    | none =>
      rw [put_nofind s k v t now hl hf, put_nofind s k v t now' hl hf]
      exact ⟨rfl, rfl, rfl⟩
    | some q =>
      obtain ⟨id', e⟩ := q
      rw [put_existing s k v t now hl hf, put_existing s k v t now' hl hf]
      refine ⟨rfl, ?_, rfl⟩
      simp only [List.map_cons]
  | none =>
    rw [put_new s k v t now hl, put_new s k v t now' hl]
    unfold lazyRemoveOldest
    dsimp only
    by_cases hc : (((k, s.nextId) :: s.hash).length : Int) > s.maxLen
    · rw [if_pos hc, if_pos hc]
      cases hls : s.lst with
      | nil =>
        simp only [List.getLast?_singleton]
        unfold removeElem hashDelete
        dsimp only
        refine ⟨rfl, ?_, rfl⟩
        exact map_fst_filter_congr s.nextId (by simp)
      | cons c rest =>
        rw [List.getLast?_cons_cons, List.getLast?_cons_cons]
        cases hbl : (c :: rest).getLast? with
        | none => exact absurd (List.getLast?_eq_none_iff.mp hbl) (by simp)
        | some b =>
          unfold removeElem hashDelete
          dsimp only
          refine ⟨rfl, ?_, rfl⟩
          exact map_fst_filter_congr b.1 (by simp)
    · rw [if_neg hc, if_neg hc]
      exact ⟨rfl, rfl, rfl⟩

/-! ### The callback record is append-only and never read back -/

theorem removeElem_evicted (s : lruCache K V) (pre : List (K × V))
    (elem : Option (Nat × listEntry K V)) :
    removeElem { s with evicted := pre ++ s.evicted } elem =
      { removeElem s elem with
        evicted := pre ++ (removeElem s elem).evicted } := by
  cases elem with
  | none => rfl
  | some q =>
    obtain ⟨id, e⟩ := q
    unfold removeElem
    dsimp only
    by_cases hcb : s.hasCallback = true
    · rw [if_pos hcb, if_pos hcb, List.append_assoc]
    · rw [if_neg hcb, if_neg hcb]

theorem lazyRemoveOldest_evicted (s : lruCache K V) (pre : List (K × V)) :
    lazyRemoveOldest { s with evicted := pre ++ s.evicted } =
      { lazyRemoveOldest s with
        evicted := pre ++ (lazyRemoveOldest s).evicted } := by
  unfold lazyRemoveOldest
  dsimp only
  by_cases hc : (s.hash.length : Int) > s.maxLen
  · rw [if_pos hc, if_pos hc]
    exact removeElem_evicted s pre s.lst.getLast?
  · rw [if_neg hc, if_neg hc]

theorem putWithTimeout_evicted (s : lruCache K V) (pre : List (K × V))
    (k : K) (v : V) (t now : Int) :
    PutWithTimeout { s with evicted := pre ++ s.evicted } k v t now =
      { PutWithTimeout s k v t now with
        evicted := pre ++ (PutWithTimeout s k v t now).evicted } := by
  cases hl : hashLookup s.hash k with
  | some id =>
    cases hf : s.lst.find? (fun p => p.1 == id) with
    | none =>
      rw [put_nofind { s with evicted := pre ++ s.evicted } k v t now hl hf,
        put_nofind s k v t now hl hf]
    | some q =>
      obtain ⟨id', e⟩ := q
      rw [put_existing { s with evicted := pre ++ s.evicted } k v t now hl hf,
        put_existing s k v t now hl hf]
  | none =>
    rw [put_new { s with evicted := pre ++ s.evicted } k v t now hl,
      put_new s k v t now hl]
    exact lazyRemoveOldest_evicted
      { s with
        lst := (s.nextId,
          ⟨k, v, now + (if t < second then second else t)⟩) :: s.lst,
        hash := (k, s.nextId) :: s.hash,
        nextId := s.nextId + 1 } pre

theorem get_evicted (s : lruCache K V) (pre : List (K × V)) (k : K) (now : Int) :
    Get { s with evicted := pre ++ s.evicted } k now =
      ((Get s k now).1,
        { (Get s k now).2 with
          evicted := pre ++ (Get s k now).2.evicted }) := by
  cases hl : hashLookup s.hash k with
  | none =>
    rw [get_absent { s with evicted := pre ++ s.evicted } k now hl,
      get_absent s k now hl]
  | some id =>
    cases hf : s.lst.find? (fun p => p.1 == id) with
    | none =>
      rw [get_nofind { s with evicted := pre ++ s.evicted } k now hl hf,
        get_nofind s k now hl hf]
    | some q =>
      obtain ⟨id', e⟩ := q
      by_cases hd : e.deadTime < now
      · rw [get_expired { s with evicted := pre ++ s.evicted } k now hl hf hd,
          get_expired s k now hl hf hd]
        dsimp only
        rw [removeElem_evicted]
      · rw [get_live { s with evicted := pre ++ s.evicted } k now hl hf hd,
          get_live s k now hl hf hd]

theorem del_evicted (s : lruCache K V) (pre : List (K × V)) (k : K) :
    Del { s with evicted := pre ++ s.evicted } k =
      ((Del s k).1,
        { (Del s k).2 with
          evicted := pre ++ (Del s k).2.evicted }) := by
  cases hl : hashLookup s.hash k with
  | none =>
    rw [del_absent { s with evicted := pre ++ s.evicted } k hl,
      del_absent s k hl]
  | some id =>
    cases hf : s.lst.find? (fun p => p.1 == id) with
    | none =>
      rw [del_nofind { s with evicted := pre ++ s.evicted } k hl hf,
        del_nofind s k hl hf]
    | some q =>
      obtain ⟨id', e⟩ := q
      rw [del_present { s with evicted := pre ++ s.evicted } k hl hf,
        del_present s k hl hf]
      dsimp only
      rw [removeElem_evicted]

theorem applyOp_evicted (s : lruCache K V) (pre : List (K × V)) (op : Op K V) :
    applyOp { s with evicted := pre ++ s.evicted } op =
      { applyOp s op with evicted := pre ++ (applyOp s op).evicted } := by
  cases op with
  | put k v now => exact putWithTimeout_evicted s pre k v s.cacheTime now
  | putWithTimeout k v t now => exact putWithTimeout_evicted s pre k v t now
  | get k now =>
    show (Get { s with evicted := pre ++ s.evicted } k now).2 = _
    rw [get_evicted]
    rfl
  | del k =>
    show (Del { s with evicted := pre ++ s.evicted } k).2 = _
    rw [del_evicted]
    rfl
  | len => rfl
  | close => rfl

theorem runOps_evicted (ops : List (Op K V)) (s : lruCache K V)
    (pre : List (K × V)) :
    runOps { s with evicted := pre ++ s.evicted } ops =
      { runOps s ops with evicted := pre ++ (runOps s ops).evicted } := by
  induction ops generalizing s pre with
  | nil => rfl
  | cons op ops ih =>
    show runOps (applyOp { s with evicted := pre ++ s.evicted } op) ops = _
    rw [applyOp_evicted]
    exact ih (applyOp s op) pre

/-! ### Concrete states used by the witnesses -/

/-- A cache with capacity 2 and no callback, as freshly constructed. -/
def cacheTwo : lruCache Nat Nat := NewCacheWithConfig Nat Nat ⟨2, minute, false⟩

/-- A cache with capacity 2 and a callback, holding one entry for key 1 with
value 10 inserted at time 0 with a one-second TTL. -/
def sTtl : lruCache Nat Nat :=
  PutWithTimeout (NewCacheWithConfig Nat Nat ⟨2, minute, true⟩) 1 10 second 0

/-! ### The claims -/

/-- C1 (corrected): on a cache whose `maxLen` is at least 1, `PutWithTimeout`
(with any ttl) or `Put` of `(k, v)` immediately followed by `Get k` at the
same instant returns `(v, found = true)`.  (As stated, the claim fails when
`maxLen ≤ 0`: the freshly inserted entry is itself evicted at once; see the
counterexample.) -/
theorem claim_C1 (s : lruCache K V) (k : K) (v : V) (t now : Int)
    (hInv : Inv s) (hMax : 1 ≤ s.maxLen) :
    (Get (PutWithTimeout s k v t now) k now).1 = (some v, true) ∧
    (Get (Put s k v now) k now).1 = (some v, true) :=
  ⟨get_put_same hInv hMax k v t now,
    get_put_same hInv hMax k v s.cacheTime now⟩

/-- C1 witness: a concrete run on a capacity-2 cache. -/
theorem claim_C1_witness :
    Inv cacheTwo ∧ 1 ≤ cacheTwo.maxLen ∧
    (Get (PutWithTimeout cacheTwo 5 42 second 100) 5 100).1 = (some 42, true) :=
  ⟨by decide, by decide,
    (claim_C1 cacheTwo 5 42 second 100 (by decide) (by decide)).1⟩

/-- C1 counterexample: with `maxLen = 0`, insert-then-read at the same
instant reports the key absent, for `PutWithTimeout` and `Put` alike. -/
theorem claim_C1_counterexample :
    (Get (PutWithTimeout (NewCacheWithConfig Nat Nat ⟨0, minute, false⟩)
        1 7 second 0) 1 0).1 ≠ (some 7, true) ∧
    (Get (Put (NewCacheWithConfig Nat Nat ⟨0, minute, false⟩) 1 7 0) 1 0).1 ≠
      (some 7, true) := by
  decide

/-- C2: in every state reachable from a fresh cache by public operations,
the key index and the recency list have the same size, and every index entry
points at a node of the list holding its key. -/
theorem claim_C2 (cfg : Config) (ops : List (Op K V)) :
    (runOps (NewCacheWithConfig K V cfg) ops).hash.length =
      (runOps (NewCacheWithConfig K V cfg) ops).lst.length ∧
    Correspond (runOps (NewCacheWithConfig K V cfg) ops) := by
  have hInv := inv_runOps (inv_newCacheWithConfig cfg) ops
  constructor
  · exact hash_length_eq hInv.1.2.2.2
  · intro p hp
    have hg : p ∈ graph (runOps (NewCacheWithConfig K V cfg) ops).lst :=
      hInv.1.2.2.2.mem_iff.mp hp
    unfold graph at hg
    rcases List.mem_map.mp hg with ⟨q, hq, hqe⟩
    refine ⟨q.2, ?_, ?_⟩
    · rw [← hqe]
      exact hq
    · rw [← hqe]

/-- C3 (corrected): inserting a fresh key into a reachable state leaves at
most `max maxLen 0` entries; the insert removes at most one entry, and when
it removes one it is the back-most node of the list after the push.  (As
stated, with `entries ≤ maxLen`, the claim fails for negative `maxLen`; see
the counterexample.) -/
theorem claim_C3 (s : lruCache K V) (k : K) (v : V) (t now : Int)
    (hInv : Inv s) (hl : hashLookup s.hash k = none) :
    ((PutWithTimeout s k v t now).lst.length : Int) ≤ max s.maxLen 0 ∧
    ((PutWithTimeout s k v t now).lst.length = s.lst.length + 1 ∨
      (PutWithTimeout s k v t now).lst.length = s.lst.length) ∧
    ((PutWithTimeout s k v t now).lst =
        (s.nextId, ⟨k, v, now + (if t < second then second else t)⟩) :: s.lst ∨
      (PutWithTimeout s k v t now).lst =
        ((s.nextId,
          ⟨k, v, now + (if t < second then second else t)⟩) :: s.lst).dropLast) := by
  obtain ⟨⟨hids, hkeys, hfresh, hperm⟩, hlen⟩ := hInv
  rw [put_new s k v t now hl]
  unfold lazyRemoveOldest
  dsimp only
  have hhl : s.hash.length = s.lst.length :=
    hash_length_eq hperm
  by_cases hc : (((k, s.nextId) :: s.hash).length : Int) > s.maxLen
  · rw [if_pos hc]
    have hnodup : ((((s.nextId,
        (⟨k, v, now + (if t < second then second else t)⟩ : listEntry K V)) ::
          s.lst).map Prod.fst)).Nodup := by
      simp only [List.map_cons, List.nodup_cons]
      refine ⟨?_, hids⟩
      intro hm
      rcases List.mem_map.mp hm with ⟨q, hq, hq1⟩
      exact absurd hq1 (Nat.ne_of_lt (hfresh q hq))
    cases hbl : ((s.nextId,
        (⟨k, v, now + (if t < second then second else t)⟩ : listEntry K V)) ::
          s.lst).getLast? with
    | none => exact absurd (List.getLast?_eq_none_iff.mp hbl) (by simp)
    | some b =>
      obtain ⟨bid, be⟩ := b
      have hfl := filter_getLast_eq_dropLast Prod.fst hbl hnodup
      dsimp only at hfl
      unfold removeElem
      dsimp only
      rw [hfl]
      refine ⟨?_, ?_, Or.inr rfl⟩
      · rw [List.length_dropLast]
        simp only [List.length_cons, Nat.add_sub_cancel]
        exact hlen
      · rw [List.length_dropLast]
        simp only [List.length_cons, Nat.add_sub_cancel]
        exact Or.inr trivial
  · rw [if_neg hc]
    have hsz : (s.lst.length : Int) + 1 ≤ s.maxLen := by
      simp only [List.length_cons] at hc
      omega
    refine ⟨?_, Or.inl rfl, Or.inl rfl⟩
    simp only [List.length_cons, Nat.cast_add, Nat.cast_one]
    exact le_trans hsz (le_max_left _ _)

/-- C3 witness: inserting a fresh key into the capacity-2 cache respects the
(clamped) capacity bound. -/
theorem claim_C3_witness :
    Inv cacheTwo ∧ hashLookup cacheTwo.hash 9 = none ∧
    ((PutWithTimeout cacheTwo 9 1 second 0).lst.length : Int) ≤
      max cacheTwo.maxLen 0 :=
  ⟨by decide, by decide,
    (claim_C3 cacheTwo 9 1 second 0 (by decide) (by decide)).1⟩

/-- C3 counterexample: with `maxLen = -1` the inserted-then-evicted state has
0 entries, and `0 ≤ -1` fails, so `entries ≤ maxLen` does not hold for every
`maxLen ≤ 0`. -/
theorem claim_C3_counterexample :
    ¬ (((PutWithTimeout (NewCacheWithConfig Nat Nat ⟨-1, minute, false⟩)
          1 2 second 0).lst.length : Int) ≤
        (NewCacheWithConfig Nat Nat ⟨-1, minute, false⟩).maxLen) := by
  decide

/-- C4: reading a present key whose deadline lies strictly before the
current time removes the entry from both the index and the list, appends
exactly one record `(k, value)` to the callback record when a callback is
configured, and returns `(nil, false)`; an absent key also returns
`(nil, false)` with the state unchanged.  Moreover `Del`, `Len` and `Close`
are insensitive to every stored deadline, and `PutWithTimeout`'s index,
node order and callback record do not depend on the current time, so the
deadline-versus-now comparison happens only inside `Get`. -/
theorem claim_C4 (s : lruCache K V) (k : K) (id : Nat) (e : listEntry K V)
    (now : Int) (hInv : Inv s)
    (hl : hashLookup s.hash k = some id)
    (hf : s.lst.find? (fun p => p.1 == id) = some (id, e))
    (hexp : e.deadTime < now) :
    (Get s k now).1 = (none, false) ∧
    hashLookup (Get s k now).2.hash k = none ∧
    (∀ p ∈ (Get s k now).2.lst, p.2.key ≠ k) ∧
    (Get s k now).2.lst.length + 1 = s.lst.length ∧
    (Get s k now).2.hash.length + 1 = s.hash.length ∧
    (Get s k now).2.evicted =
      (if s.hasCallback then s.evicted ++ [(k, e.value)] else s.evicted) ∧
    (∀ (s₂ : lruCache K V) (k₂ : K) (n₂ : Int), hashLookup s₂.hash k₂ = none →
      Get s₂ k₂ n₂ = ((none, false), s₂)) ∧
    (∀ (f : Int → Int) (s₂ : lruCache K V) (k₂ : K),
      Del (mapDead f s₂) k₂ = ((Del s₂ k₂).1, mapDead f (Del s₂ k₂).2)) ∧
    (∀ (f : Int → Int) (s₂ : lruCache K V),
      Len (mapDead f s₂) = Len s₂ ∧ Close (mapDead f s₂) = Close s₂) ∧
    (∀ (s₂ : lruCache K V) (k₂ : K) (v₂ : V) (t₂ n₂ n₂' : Int),
      (PutWithTimeout s₂ k₂ v₂ t₂ n₂).hash =
        (PutWithTimeout s₂ k₂ v₂ t₂ n₂').hash ∧
      (PutWithTimeout s₂ k₂ v₂ t₂ n₂).lst.map Prod.fst =
        (PutWithTimeout s₂ k₂ v₂ t₂ n₂').lst.map Prod.fst ∧
      (PutWithTimeout s₂ k₂ v₂ t₂ n₂).evicted =
        (PutWithTimeout s₂ k₂ v₂ t₂ n₂').evicted) := by
  have hge := get_expired s k now hl hf hexp
  obtain ⟨hek, hn, hids, hkeys, hlst, hhash, hev⟩ := removeElem_facts hInv hl hf
  rw [hge]
  exact ⟨rfl, hn, hkeys, hlst, hhash, hev,
    fun s₂ k₂ n₂ h => get_absent s₂ k₂ n₂ h,
    fun f s₂ k₂ => mapDead_del f s₂ k₂,
    fun f s₂ => ⟨mapDead_len f s₂, mapDead_close f s₂⟩,
    fun s₂ k₂ v₂ t₂ n₂ n₂' => put_time_blind s₂ k₂ v₂ t₂ n₂ n₂'⟩

/-- C4 witness: the one-second entry of `sTtl` read at time `2 s` is
reported absent. -/
theorem claim_C4_witness :
    Inv sTtl ∧ hashLookup sTtl.hash 1 = some 0 ∧
    sTtl.lst.find? (fun p => p.1 == 0) = some (0, ⟨1, 10, second⟩) ∧
    (⟨1, 10, second⟩ : listEntry Nat Nat).deadTime < 2 * second ∧
    (Get sTtl 1 (2 * second)).1 = (none, false) :=
  ⟨by decide, by decide, by decide, by decide,
    (claim_C4 sTtl 1 0 ⟨1, 10, second⟩ (2 * second) (by decide) (by decide)
      (by decide) (by decide)).1⟩

/-- The LRU scenario of C5, step by step: capacity 2, insert A = 1, insert
B = 2, read A, insert C = 3, all at time 0. -/
def c5s1 : lruCache Nat Nat := Put cacheTwo 1 10 0

/-- Second step of the C5 scenario. -/
def c5s2 : lruCache Nat Nat := Put c5s1 2 20 0

/-- Third step of the C5 scenario (the read promotes key 1). -/
def c5s3 : lruCache Nat Nat := (Get c5s2 1 0).2

/-- Fourth step of the C5 scenario (capacity exceeded, key 2 evicted). -/
def c5s4 : lruCache Nat Nat := Put c5s3 3 30 0

/-- C5: after insert A, insert B, read A, insert C on a capacity-2 cache, B
has been evicted while A and C remain: the three subsequent reads report
A found, B absent, C found, and the cache holds two entries with B gone
from the index. -/
theorem claim_C5 :
    (Get c5s4 1 0).1 = (some 10, true) ∧
    (Get (Get c5s4 1 0).2 2 0).1 = (none, false) ∧
    (Get (Get (Get c5s4 1 0).2 2 0).2 3 0).1 = (some 30, true) ∧
    hashLookup c5s4.hash 2 = none ∧
    Len c5s4 = 2 := by
  decide

/-- C6: a ttl below one second behaves exactly as a ttl of one second:
`PutWithTimeout` clamps it before doing anything else, so the whole
resulting state coincides. -/
theorem claim_C6 (s : lruCache K V) (k : K) (v : V) (t now : Int)
    (h : t < second) :
    PutWithTimeout s k v t now = PutWithTimeout s k v second now ∧
    (∀ t' : Int,
      PutWithTimeout s k v t' now = PutWithTimeout s k v (max t' second) now) := by
  refine ⟨?_, ?_⟩
  · unfold PutWithTimeout
    rw [if_pos h, if_neg (lt_irrefl second)]
  · intro t'
    by_cases h' : t' < second
    · rw [max_eq_right (le_of_lt h')]
      unfold PutWithTimeout
      rw [if_pos h', if_neg (lt_irrefl second)]
    · rw [max_eq_left (le_of_not_lt h')]

/-- C6 witness: a one-millisecond ttl produces the same state as a
one-second ttl. -/
theorem claim_C6_witness :
    (1000000 : Int) < second ∧
    PutWithTimeout cacheTwo 1 2 1000000 0 = PutWithTimeout cacheTwo 1 2 second 0 :=
  ⟨by decide, (claim_C6 cacheTwo 1 2 1000000 0 (by decide)).1⟩

/-- C7: a successful read of a live entry only promotes it: the returned
state keeps the very same entry (value and deadline untouched) at the front,
the index, callback record, configuration and entry count are unchanged,
and the list is a permutation of the old one. -/
theorem claim_C7 (s : lruCache K V) (k : K) (id : Nat) (e : listEntry K V)
    (now : Int) (hInv : Inv s)
    (hl : hashLookup s.hash k = some id)
    (hf : s.lst.find? (fun p => p.1 == id) = some (id, e))
    (hlive : ¬ e.deadTime < now) :
    Get s k now = ((some e.value, true),
      { s with lst := (id, e) :: s.lst.filter (fun p => !(p.1 == id)) }) ∧
    (Get s k now).2.hash = s.hash ∧
    (Get s k now).2.evicted = s.evicted ∧
    (Get s k now).2.cacheTime = s.cacheTime ∧
    (Get s k now).2.maxLen = s.maxLen ∧
    (Get s k now).2.lst.Perm s.lst ∧
    (Get s k now).2.lst.length = s.lst.length ∧
    (Get s k now).2.lst.head? = some (id, e) := by
  have hg := get_live s k now hl hf hlive
  have hmem : (id, e) ∈ s.lst := List.mem_of_find?_eq_some hf
  have hperm : s.lst.Perm ((id, e) :: s.lst.filter (fun p => !(p.1 == id))) :=
    perm_cons_filter Prod.fst hmem hInv.1.1
  rw [hg]
  exact ⟨rfl, rfl, rfl, rfl, rfl, hperm.symm, hperm.symm.length_eq, rfl⟩

/-- C7 witness: reading the live entry of `sTtl` at time 0 keeps it at the
front unchanged. -/
theorem claim_C7_witness :
    Inv sTtl ∧ hashLookup sTtl.hash 1 = some 0 ∧
    sTtl.lst.find? (fun p => p.1 == 0) = some (0, ⟨1, 10, second⟩) ∧
    ¬ ((⟨1, 10, second⟩ : listEntry Nat Nat).deadTime < 0) ∧
    (Get sTtl 1 0).2.lst.head? = some (0, ⟨1, 10, second⟩) :=
  ⟨by decide, by decide, by decide, by decide,
    (claim_C7 sTtl 1 0 ⟨1, 10, second⟩ 0 (by decide) (by decide) (by decide)
      (by decide)).2.2.2.2.2.2.2⟩

/-- C8: deleting a present key returns its stored value, removes the entry
from index and list, and appends exactly one callback record; deleting an
absent key returns `nil` (the zero value — there is no separate not-found
signal) and leaves the state untouched. -/
theorem claim_C8 (s : lruCache K V) (k : K) (hInv : Inv s) :
    (∀ (id : Nat) (e : listEntry K V),
      hashLookup s.hash k = some id →
      s.lst.find? (fun p => p.1 == id) = some (id, e) →
      (Del s k).1 = some e.value ∧
      hashLookup (Del s k).2.hash k = none ∧
      (∀ p ∈ (Del s k).2.lst, p.2.key ≠ k) ∧
      (Del s k).2.lst.length + 1 = s.lst.length ∧
      (Del s k).2.evicted =
        (if s.hasCallback then s.evicted ++ [(k, e.value)] else s.evicted)) ∧
    (hashLookup s.hash k = none → Del s k = (none, s)) := by
  constructor
  · intro id e hl hf
    have hd := del_present s k hl hf
    obtain ⟨hek, hn, hids, hkeys, hlst, hhash, hev⟩ := removeElem_facts hInv hl hf
    rw [hd]
    exact ⟨rfl, hn, hkeys, hlst, hev⟩
  · intro hl
    exact del_absent s k hl

/-- C8 witness: deleting key 1 of `sTtl` returns 10, deleting the absent
key 5 returns `nil` and changes nothing. -/
theorem claim_C8_witness :
    Inv sTtl ∧ (Del sTtl 1).1 = some 10 ∧ Del sTtl 5 = (none, sTtl) :=
  ⟨by decide,
    ((claim_C8 sTtl 1 (by decide)).1 0 ⟨1, 10, second⟩ (by decide) (by decide)).1,
    (claim_C8 sTtl 5 (by decide)).2 (by decide)⟩

/-- C9: `Close` empties the index and the list, makes `Len` report 0, never
touches the callback record (no callback fires, however many live or expired
entries are discarded), and the closed cache behaves exactly like a freshly
constructed cache with the same configuration: any subsequent operation
sequence produces the same state, up to the already-accumulated callback
record being a prefix. -/
theorem claim_C9 (s : lruCache K V) (ops : List (Op K V)) :
    (Close s).hash = [] ∧ (Close s).lst = [] ∧ Len (Close s) = 0 ∧
    (Close s).evicted = s.evicted ∧
    runOps (Close s) ops =
      { runOps (freshCache K V s.maxLen s.cacheTime s.hasCallback) ops with
        evicted := s.evicted ++
          (runOps (freshCache K V s.maxLen s.cacheTime s.hasCallback) ops).evicted } := by
  refine ⟨rfl, rfl, rfl, rfl, ?_⟩
  have h := runOps_evicted ops
    (freshCache K V s.maxLen s.cacheTime s.hasCallback) s.evicted
  dsimp only [freshCache] at h
  rw [List.append_nil] at h
  exact h

/-- C10: deleting a key whose deadline has already passed still returns the
stored value and still appends the callback record: `Del` performs no expiry
check. -/
theorem claim_C10 (s : lruCache K V) (k : K) (id : Nat) (e : listEntry K V)
    (now : Int) (hInv : Inv s)
    (hl : hashLookup s.hash k = some id)
    (hf : s.lst.find? (fun p => p.1 == id) = some (id, e))
    (hexp : e.deadTime < now) :
    (Del s k).1 = some e.value ∧
    (Del s k).2.evicted =
      (if s.hasCallback then s.evicted ++ [(k, e.value)] else s.evicted) ∧
    hashLookup (Del s k).2.hash k = none ∧
    (Del s k).2.lst.length + 1 = s.lst.length := by
  have hd := del_present s k hl hf
  obtain ⟨hek, hn, hids, hkeys, hlst, hhash, hev⟩ := removeElem_facts hInv hl hf
  rw [hd]
  exact ⟨rfl, hev, hn, hlst⟩

/-- C10 witness: at time `2 s` the entry of `sTtl` is expired, yet `Del`
still returns 10 and fires the callback with `(1, 10)`. -/
theorem claim_C10_witness :
    Inv sTtl ∧ (⟨1, 10, second⟩ : listEntry Nat Nat).deadTime < 2 * second ∧
    (Del sTtl 1).1 = some 10 ∧
    (Del sTtl 1).2.evicted =
      (if sTtl.hasCallback then sTtl.evicted ++ [(1, 10)] else sTtl.evicted) :=
  ⟨by decide, by decide,
    (claim_C10 sTtl 1 0 ⟨1, 10, second⟩ (2 * second) (by decide) (by decide)
      (by decide) (by decide)).1,
    (claim_C10 sTtl 1 0 ⟨1, 10, second⟩ (2 * second) (by decide) (by decide)
      (by decide) (by decide)).2.1⟩

end LruCache
